import Mathlib

/-!
Verification of `DynamicQuantizeLinear<uint8_t>::Compute`
(`onnxruntime/core/providers/cpu/tensor/dynamicquantizelinear.cc`).

Embedding choices:
* 32-bit floats are modelled by `FP`: an exact rational for every finite
  value, plus the IEEE special values NaN, +inf and -inf.  Arithmetic on
  finite values is exact (rational); the propagation rules for the special
  values (NaN contamination, `x / 0`, `inf - inf`, ...) follow IEEE 754.
* `std::min` / `std::max` are modelled with their exact C++ semantics
  (`std::min(a,b) = (b < a) ? b : a`, `std::max(a,b) = (a < b) ? b : a`,
  with `<` the IEEE comparison, false whenever an operand is NaN).
* Eigen's `minCoeff` / `maxCoeff` on a non-empty vector reduce the
  coefficients with `numext::mini` / `numext::maxi`, i.e. `std::min` /
  `std::max`, starting from the first coefficient; `minCoeff` / `maxCoeff`
  below do the same on a list.
* `RoundHalfToEven` (the source's `std::fesetround(FE_TONEAREST)` followed
  by `std::nearbyintf`) is IEEE round-to-nearest, ties-to-even; on a finite
  value it is `rhteQ` below.
* `static_cast<uint8_t>` of a float (always applied to a value already
  clamped into `[0, 255]` and rounded to an integer) is `toU8`.
-/

/-- A 32-bit float value: NaN, +infinity, -infinity, or a finite value
modelled as an exact rational. -/
inductive FP where
  | nan : FP
  | inf : FP
  | ninf : FP
  | fin : ℚ → FP
deriving DecidableEq, Repr

namespace FP

/-- IEEE `<` on floats: false whenever an operand is NaN. -/
def lt : FP → FP → Bool
  | nan, _ => false
  | _, nan => false
  | ninf, ninf => false
  | ninf, _ => true
  | _, ninf => false
  | inf, _ => false
  | _, inf => true
  | fin a, fin b => a < b

/-- IEEE `<=` on floats: false whenever an operand is NaN. -/
def le : FP → FP → Bool
  | nan, _ => false
  | _, nan => false
  | ninf, _ => true
  | _, ninf => false
  | _, inf => true
  | inf, _ => false
  | fin a, fin b => a ≤ b

/-- C++ `std::min(a, b)`: `(b < a) ? b : a`. -/
def stdMin (a b : FP) : FP := if lt b a then b else a

/-- C++ `std::max(a, b)`: `(a < b) ? b : a`. -/
def stdMax (a b : FP) : FP := if lt a b then b else a

/-- IEEE float subtraction (exact on finite values). -/
def sub : FP → FP → FP
  | nan, _ => nan
  | _, nan => nan
  | inf, inf => nan
  | inf, _ => inf
  | ninf, ninf => nan
  | ninf, _ => ninf
  | fin _, inf => ninf
  | fin _, ninf => inf
  | fin a, fin b => fin (a - b)

/-- IEEE float addition (exact on finite values). -/
def add : FP → FP → FP
  | nan, _ => nan
  | _, nan => nan
  | inf, ninf => nan
  | inf, _ => inf
  | ninf, inf => nan
  | ninf, _ => ninf
  | fin _, inf => inf
  | fin _, ninf => ninf
  | fin a, fin b => fin (a + b)

/-- IEEE float division (exact on finite values): `0/0`, `inf/inf` are NaN,
`x/0` for `x ≠ 0` is a signed infinity, `finite/inf` is zero. -/
def div : FP → FP → FP
  | nan, _ => nan
  | _, nan => nan
  | inf, inf => nan
  | inf, ninf => nan
  | ninf, inf => nan
  | ninf, ninf => nan
  | inf, fin b => if b < 0 then ninf else inf
  | ninf, fin b => if b < 0 then inf else ninf
  | fin _, inf => fin 0
  | fin _, ninf => fin 0
  | fin a, fin b =>
    if b = 0 then
      if a = 0 then nan else if a > 0 then inf else ninf
    else fin (a / b)

end FP

/-- Round a rational to the nearest integer, ties to even (IEEE
round-to-nearest-even, the behaviour of `nearbyintf` under
`FE_TONEAREST`). -/
def rhteQ (q : ℚ) : ℤ :=
  if 2 * (q - ⌊q⌋) < 1 then ⌊q⌋
  else if 1 < 2 * (q - ⌊q⌋) then ⌊q⌋ + 1
  else if ⌊q⌋ % 2 = 0 then ⌊q⌋ else ⌊q⌋ + 1

/-- `RoundHalfToEven` from the source: `std::fesetround(FE_TONEAREST)`
followed by `std::nearbyintf`.  NaN and infinities are returned
unchanged; a finite value is rounded to the nearest integer with ties to
even. -/
def RoundHalfToEven : FP → FP
  | FP.nan => FP.nan
  | FP.inf => FP.inf
  | FP.ninf => FP.ninf
  | FP.fin q => FP.fin (rhteQ q)

/-- `static_cast<uint8_t>` of a float.  In the kernel it is only ever
applied to a finite value already rounded to an integer in `[0, 255]`,
where it is exact; other cases are C++ UB and unreachable here. -/
def toU8 : FP → ℕ
  | FP.fin q => (⌊q⌋).toNat % 256
  | _ => 0

/-- Eigen `minCoeff` on a non-empty vector: reduce with
`numext::mini = std::min` starting from the first coefficient.
(`minCoeff` on an empty vector is an Eigen assertion failure; the value
returned here for `[]` is irrelevant to every theorem below.) -/
def minCoeff : List FP → FP
  | [] => FP.nan
  | x :: xs => xs.foldl FP.stdMin x

/-- Eigen `maxCoeff` on a non-empty vector: reduce with
`numext::maxi = std::max` starting from the first coefficient. -/
def maxCoeff : List FP → FP
  | [] => FP.nan
  | x :: xs => xs.foldl FP.stdMax x

/-- Modelled from the spec: `MlasQuantizeLinear` (the MLAS elementwise
quantization routine) is declared in `core/mlas/inc/mlas.h` but its body is
not under `src/`.  Per the spec (§4.2): for every index `i`,
`output[i] = round_half_to_even(clamp(input[i] / scale + zero_point, qmin, qmax))`,
cast to the output integer type, with `qmin = 0`, `qmax = 255` for `uint8`.
The clamp is the same `std::max(qmin, std::min(qmax, ·))` idiom the kernel
itself uses for the zero point, which realizes the spec's scale-0 policy
(§9: a NaN/Inf intermediate is clamped to the domain bounds then rounded). -/
def MlasQuantizeLinear (input : List FP) (scale : FP) (zero_point : ℕ) : List ℕ :=
  input.map fun x =>
    toU8 (RoundHalfToEven
      (FP.stdMax (FP.fin 0) (FP.stdMin (FP.fin 255)
        (FP.add (FP.div x scale) (FP.fin (zero_point : ℚ))))))

/-- The three outputs of the operator: `Y` (quantized tensor, uint8 values),
`Y_scale` (float scalar) and `Y_zero_point` (uint8 scalar). -/
structure ComputeResult where
  y : List ℕ
  y_scale : FP
  y_zero_point : ℕ
deriving DecidableEq, Repr

/-- `DynamicQuantizeLinear<uint8_t>::Compute`, on the flat element buffer
of the input tensor.  Follows the source line by line:
quantization-domain bounds (with the inert signed-8-bit `-128 → -127`
adjustment), observed min/max clamped to include zero, scale, zero point
(clamp, round half to even, cast), then the elementwise quantization pass. -/
def Compute (x_data : List FP) : ComputeResult :=
  let qmax : ℚ := 255
  let qmin0 : ℚ := 0
  -- Adjust the int8 range to -127 to 127 so that zero point can be 0
  let qmin : ℚ := if qmin0 = -128 then -127 else qmin0
  let mn0 := minCoeff x_data
  let mx0 := maxCoeff x_data
  -- ensure the input range includes zero
  let mn := FP.stdMin mn0 (FP.fin 0)
  let mx := FP.stdMax mx0 (FP.fin 0)
  -- find scale and zero point
  let scale := FP.div (FP.sub mx mn) (FP.fin (qmax - qmin))
  let initial_zero_point := FP.sub (FP.fin qmin) (FP.div mn scale)
  let zero_point :=
    toU8 (RoundHalfToEven
      (FP.stdMax (FP.fin qmin) (FP.stdMin (FP.fin qmax) initial_zero_point)))
  { y := MlasQuantizeLinear x_data scale zero_point
    y_scale := scale
    y_zero_point := zero_point }

/-! ### Evaluation lemmas for the `FP` operations on finite values -/

lemma FP.stdMin_fin_fin (a b : ℚ) : FP.stdMin (FP.fin a) (FP.fin b) = FP.fin (min a b) := by
  simp only [FP.stdMin, FP.lt, decide_eq_true_eq]
  split_ifs with h
  · exact congrArg FP.fin (min_eq_right h.le).symm
  · exact congrArg FP.fin (min_eq_left (not_lt.mp h)).symm

lemma FP.stdMax_fin_fin (a b : ℚ) : FP.stdMax (FP.fin a) (FP.fin b) = FP.fin (max a b) := by
  simp only [FP.stdMax, FP.lt, decide_eq_true_eq]
  split_ifs with h
  · exact congrArg FP.fin (max_eq_right h.le).symm
  · exact congrArg FP.fin (max_eq_left (not_lt.mp h)).symm

lemma FP.sub_fin_fin (a b : ℚ) : FP.sub (FP.fin a) (FP.fin b) = FP.fin (a - b) := rfl

lemma FP.add_fin_fin (a b : ℚ) : FP.add (FP.fin a) (FP.fin b) = FP.fin (a + b) := rfl

lemma FP.div_fin_fin (a b : ℚ) (hb : b ≠ 0) :
    FP.div (FP.fin a) (FP.fin b) = FP.fin (a / b) := by
  simp [FP.div, hb]

lemma RoundHalfToEven_fin (q : ℚ) : RoundHalfToEven (FP.fin q) = FP.fin (rhteQ q) := rfl

lemma toU8_fin (q : ℚ) : toU8 (FP.fin q) = (⌊q⌋).toNat % 256 := rfl

/-! ### Facts about round-half-to-even on rationals -/

lemma rhteQ_eq_floor_or (q : ℚ) : rhteQ q = ⌊q⌋ ∨ rhteQ q = ⌊q⌋ + 1 := by
  unfold rhteQ
  split_ifs <;> simp

lemma abs_rhteQ_sub_le (q : ℚ) : |(rhteQ q : ℚ) - q| ≤ 1 / 2 := by
  have hfl : (⌊q⌋ : ℚ) ≤ q := Int.floor_le q
  have hfu : q < (⌊q⌋ : ℚ) + 1 := Int.lt_floor_add_one q
  unfold rhteQ
  split_ifs with h1 h2 h3 <;> rw [abs_sub_le_iff] <;> constructor <;> push_cast <;> linarith

lemma rhteQ_intCast (n : ℤ) : rhteQ (n : ℚ) = n := by
  unfold rhteQ
  rw [Int.floor_intCast]
  norm_num

lemma le_rhteQ (m : ℤ) (q : ℚ) (h : (m : ℚ) ≤ q) : m ≤ rhteQ q := by
  have hm : m ≤ ⌊q⌋ := Int.le_floor.mpr h
  rcases rhteQ_eq_floor_or q with he | he <;> omega

lemma rhteQ_le (m : ℤ) (q : ℚ) (h : q ≤ (m : ℚ)) : rhteQ q ≤ m := by
  have hb := abs_rhteQ_sub_le q
  rw [abs_sub_le_iff] at hb
  have : (rhteQ q : ℚ) < (m : ℚ) + 1 := by linarith [hb.1]
  exact_mod_cast Int.lt_add_one_iff.mp (by exact_mod_cast this)

lemma rhteQ_natCast (n : ℕ) : rhteQ (n : ℚ) = n := by
  have := rhteQ_intCast (n : ℤ)
  push_cast at this ⊢
  exact this

/-! ### Observed range on rational inputs (the spec's Step 2) -/

/-- The spec's "minimum over all input elements" for a (finite-valued)
input, as an exact rational. -/
def obsMin : List ℚ → ℚ
  | [] => 0
  | q :: t => t.foldl min q

/-- The spec's "maximum over all input elements" for a (finite-valued)
input, as an exact rational. -/
def obsMax : List ℚ → ℚ
  | [] => 0
  | q :: t => t.foldl max q

lemma foldl_min_le_init (l : List ℚ) (a : ℚ) : l.foldl min a ≤ a := by
  induction l generalizing a with
  | nil => exact le_refl a
  | cons x t ih => exact le_trans (ih (min a x)) (min_le_left a x)

lemma foldl_min_le_mem (l : List ℚ) (a x : ℚ) (h : x ∈ l) : l.foldl min a ≤ x := by
  induction l generalizing a with
  | nil => cases h
  | cons y t ih =>
    rcases List.mem_cons.mp h with rfl | hx
    · exact le_trans (foldl_min_le_init t (min a x)) (min_le_right a x)
    · exact ih (min a y) hx

lemma le_foldl_max_init (l : List ℚ) (a : ℚ) : a ≤ l.foldl max a := by
  induction l generalizing a with
  | nil => exact le_refl a
  | cons x t ih => exact le_trans (le_max_left a x) (ih (max a x))

lemma le_foldl_max_mem (l : List ℚ) (a x : ℚ) (h : x ∈ l) : x ≤ l.foldl max a := by
  induction l generalizing a with
  | nil => cases h
  | cons y t ih =>
    rcases List.mem_cons.mp h with rfl | hx
    · exact le_trans (le_max_right a x) (le_foldl_max_init t (max a x))
    · exact ih (max a y) hx

lemma obsMin_le (qs : List ℚ) (x : ℚ) (h : x ∈ qs) : obsMin qs ≤ x := by
  cases qs with
  | nil => cases h
  | cons q t =>
    rcases List.mem_cons.mp h with rfl | hx
    · exact foldl_min_le_init t x
    · exact foldl_min_le_mem t q x hx

lemma le_obsMax (qs : List ℚ) (x : ℚ) (h : x ∈ qs) : x ≤ obsMax qs := by
  cases qs with
  | nil => cases h
  | cons q t =>
    rcases List.mem_cons.mp h with rfl | hx
    · exact le_foldl_max_init t x
    · exact le_foldl_max_mem t q x hx

/-! ### `minCoeff` / `maxCoeff` on all-finite inputs -/

lemma foldl_stdMin_map_fin (l : List ℚ) (a : ℚ) :
    (l.map FP.fin).foldl FP.stdMin (FP.fin a) = FP.fin (l.foldl min a) := by
  induction l generalizing a with
  | nil => rfl
  | cons x t ih =>
    simp only [List.map_cons, List.foldl_cons, FP.stdMin_fin_fin]
    exact ih (min a x)

lemma foldl_stdMax_map_fin (l : List ℚ) (a : ℚ) :
    (l.map FP.fin).foldl FP.stdMax (FP.fin a) = FP.fin (l.foldl max a) := by
  induction l generalizing a with
  | nil => rfl
  | cons x t ih =>
    simp only [List.map_cons, List.foldl_cons, FP.stdMax_fin_fin]
    exact ih (max a x)

lemma minCoeff_map_fin (qs : List ℚ) (h : qs ≠ []) :
    minCoeff (qs.map FP.fin) = FP.fin (obsMin qs) := by
  cases qs with
  | nil => exact absurd rfl h
  | cons q t => exact foldl_stdMin_map_fin t q

lemma maxCoeff_map_fin (qs : List ℚ) (h : qs ≠ []) :
    maxCoeff (qs.map FP.fin) = FP.fin (obsMax qs) := by
  cases qs with
  | nil => exact absurd rfl h
  | cons q t => exact foldl_stdMax_map_fin t q

/-! ### Unfolding `Compute` -/

/-- `Compute` with the (inert) signed-range adjustment resolved:
for `uint8`, `qmin = 0` and `qmax = 255`. -/
lemma Compute_eq (xs : List FP) :
    Compute xs =
      { y := MlasQuantizeLinear xs
          (FP.div (FP.sub (FP.stdMax (maxCoeff xs) (FP.fin 0))
            (FP.stdMin (minCoeff xs) (FP.fin 0))) (FP.fin 255))
          (toU8 (RoundHalfToEven (FP.stdMax (FP.fin 0) (FP.stdMin (FP.fin 255)
            (FP.sub (FP.fin 0) (FP.div (FP.stdMin (minCoeff xs) (FP.fin 0))
              (FP.div (FP.sub (FP.stdMax (maxCoeff xs) (FP.fin 0))
                (FP.stdMin (minCoeff xs) (FP.fin 0))) (FP.fin 255))))))))
        y_scale := FP.div (FP.sub (FP.stdMax (maxCoeff xs) (FP.fin 0))
          (FP.stdMin (minCoeff xs) (FP.fin 0))) (FP.fin 255)
        y_zero_point := toU8 (RoundHalfToEven (FP.stdMax (FP.fin 0) (FP.stdMin (FP.fin 255)
          (FP.sub (FP.fin 0) (FP.div (FP.stdMin (minCoeff xs) (FP.fin 0))
            (FP.div (FP.sub (FP.stdMax (maxCoeff xs) (FP.fin 0))
              (FP.stdMin (minCoeff xs) (FP.fin 0))) (FP.fin 255))))))) } := by
  have h0 : ((0 : ℚ) = -128) = False := by norm_num
  simp only [Compute, h0, if_false, show (255 : ℚ) - 0 = 255 by norm_num]

/-! ### The derived scale and zero point on all-finite inputs -/

/-- The scale the kernel derives from a finite-valued input, as an exact
rational: `(max - min) / (qmax - qmin)` with the observed range forced to
contain zero. -/
def scaleQ (qs : List ℚ) : ℚ :=
  (max (obsMax qs) 0 - min (obsMin qs) 0) / 255

/-- The (unclamped) initial zero point on a finite-valued input:
`qmin - min / scale`. -/
def izpQ (qs : List ℚ) : ℚ :=
  0 - min (obsMin qs) 0 / scaleQ qs

lemma scaleQ_nonneg (qs : List ℚ) : 0 ≤ scaleQ qs := by
  unfold scaleQ
  have h1 : min (obsMin qs) 0 ≤ 0 := min_le_right _ _
  have h2 : (0 : ℚ) ≤ max (obsMax qs) 0 := le_max_right _ _
  apply div_nonneg _ (by norm_num : (0 : ℚ) ≤ 255)
  linarith

lemma scaleQ_pos (qs : List ℚ) (hs : scaleQ qs ≠ 0) : 0 < scaleQ qs :=
  lt_of_le_of_ne (scaleQ_nonneg qs) (Ne.symm hs)

lemma Compute_y_scale_map_fin (qs : List ℚ) (h : qs ≠ []) :
    (Compute (qs.map FP.fin)).y_scale = FP.fin (scaleQ qs) := by
  rw [Compute_eq]
  simp only [minCoeff_map_fin qs h, maxCoeff_map_fin qs h,
    FP.stdMin_fin_fin, FP.stdMax_fin_fin, FP.sub_fin_fin,
    FP.div_fin_fin _ _ (by norm_num : (255 : ℚ) ≠ 0)]
  rfl

lemma izpQ_bounds (qs : List ℚ) (hs : scaleQ qs ≠ 0) :
    0 ≤ izpQ qs ∧ izpQ qs ≤ 255 := by
  have hpos := scaleQ_pos qs hs
  have hmn : min (obsMin qs) 0 ≤ 0 := min_le_right _ _
  have hmx : (0 : ℚ) ≤ max (obsMax qs) 0 := le_max_right _ _
  have h255 : 255 * scaleQ qs = max (obsMax qs) 0 - min (obsMin qs) 0 := by
    unfold scaleQ
    field_simp
  constructor
  · unfold izpQ
    have h3 : min (obsMin qs) 0 / scaleQ qs ≤ 0 / scaleQ qs := by gcongr
    rw [zero_div] at h3
    linarith
  · unfold izpQ
    rw [zero_sub, ← neg_div, div_le_iff₀ hpos]
    linarith

lemma toNat_mod256_eq (z : ℤ) (h0 : 0 ≤ z) (h255 : z ≤ 255) : z.toNat % 256 = z.toNat :=
  Nat.mod_eq_of_lt (by omega)

/-- The zero point the kernel derives on a finite-valued input with
nonzero scale, as an exact integer. -/
def zpZ (qs : List ℚ) : ℤ := rhteQ (izpQ qs)

lemma zpZ_bounds (qs : List ℚ) (hs : scaleQ qs ≠ 0) : 0 ≤ zpZ qs ∧ zpZ qs ≤ 255 :=
  ⟨le_rhteQ 0 _ (by exact_mod_cast (izpQ_bounds qs hs).1),
   rhteQ_le 255 _ (by exact_mod_cast (izpQ_bounds qs hs).2)⟩

lemma Compute_y_zero_point_map_fin (qs : List ℚ) (h : qs ≠ []) (hs : scaleQ qs ≠ 0) :
    (Compute (qs.map FP.fin)).y_zero_point = (zpZ qs).toNat := by
  rw [Compute_eq]
  simp only [minCoeff_map_fin qs h, maxCoeff_map_fin qs h,
    FP.stdMin_fin_fin, FP.stdMax_fin_fin, FP.sub_fin_fin,
    FP.div_fin_fin _ _ (by norm_num : (255 : ℚ) ≠ 0)]
  rw [show (max (obsMax qs) 0 - min (obsMin qs) 0) / 255 = scaleQ qs from rfl,
    FP.div_fin_fin _ _ hs, FP.sub_fin_fin,
    show (0 : ℚ) - min (obsMin qs) 0 / scaleQ qs = izpQ qs from rfl,
    FP.stdMin_fin_fin, min_eq_right (izpQ_bounds qs hs).2,
    FP.stdMax_fin_fin, max_eq_right (izpQ_bounds qs hs).1,
    RoundHalfToEven_fin, toU8_fin, Int.floor_intCast]
  exact toNat_mod256_eq _ (zpZ_bounds qs hs).1 (zpZ_bounds qs hs).2

lemma clamp255_bounds (z : ℚ) : 0 ≤ max 0 (min 255 z) ∧ max 0 (min 255 z) ≤ 255 :=
  ⟨le_max_left _ _, max_le (by norm_num) (min_le_left _ _)⟩

lemma quantize_fin (x s : ℚ) (hs : s ≠ 0) (zp : ℕ) :
    toU8 (RoundHalfToEven (FP.stdMax (FP.fin 0) (FP.stdMin (FP.fin 255)
      (FP.add (FP.div (FP.fin x) (FP.fin s)) (FP.fin (zp : ℚ)))))) =
    (rhteQ (max 0 (min 255 (x / s + zp)))).toNat := by
  rw [FP.div_fin_fin _ _ hs, FP.add_fin_fin, FP.stdMin_fin_fin, FP.stdMax_fin_fin,
    RoundHalfToEven_fin, toU8_fin, Int.floor_intCast]
  exact toNat_mod256_eq _
    (le_rhteQ 0 _ (by exact_mod_cast (clamp255_bounds (x / s + zp)).1))
    (rhteQ_le 255 _ (by exact_mod_cast (clamp255_bounds (x / s + zp)).2))

lemma Compute_y_eq (xs : List FP) :
    (Compute xs).y =
      MlasQuantizeLinear xs (Compute xs).y_scale (Compute xs).y_zero_point := by
  rw [Compute_eq]

lemma Compute_y_map_fin (qs : List ℚ) (h : qs ≠ []) (hs : scaleQ qs ≠ 0) :
    (Compute (qs.map FP.fin)).y =
      qs.map fun x =>
        (rhteQ (max 0 (min 255 (x / scaleQ qs + ((zpZ qs).toNat : ℚ))))).toNat := by
  rw [Compute_y_eq, Compute_y_scale_map_fin qs h, Compute_y_zero_point_map_fin qs h hs]
  simp only [MlasQuantizeLinear, List.map_map, Function.comp]
  exact List.map_congr_left fun x _ => quantize_fin x (scaleQ qs) hs ((zpZ qs).toNat)

/-! ### Structure of the derived values on arbitrary inputs -/

lemma Compute_y_scale_eq (xs : List FP) :
    (Compute xs).y_scale =
      FP.div (FP.sub (FP.stdMax (maxCoeff xs) (FP.fin 0))
        (FP.stdMin (minCoeff xs) (FP.fin 0))) (FP.fin 255) := by
  rw [Compute_eq]

lemma Compute_y_zero_point_eq (xs : List FP) :
    (Compute xs).y_zero_point =
      toU8 (RoundHalfToEven (FP.stdMax (FP.fin 0) (FP.stdMin (FP.fin 255)
        (FP.sub (FP.fin 0)
          (FP.div (FP.stdMin (minCoeff xs) (FP.fin 0)) (Compute xs).y_scale))))) := by
  rw [Compute_eq]

lemma FP.stdMin_eq_or (a b : FP) : FP.stdMin a b = a ∨ FP.stdMin a b = b := by
  unfold FP.stdMin
  split_ifs <;> simp

lemma FP.stdMax_eq_or (a b : FP) : FP.stdMax a b = a ∨ FP.stdMax a b = b := by
  unfold FP.stdMax
  split_ifs <;> simp

lemma foldl_stdMin_mem (l : List FP) (a : FP) :
    l.foldl FP.stdMin a = a ∨ l.foldl FP.stdMin a ∈ l := by
  induction l generalizing a with
  | nil => exact Or.inl rfl
  | cons x t ih =>
    rw [List.foldl_cons]
    rcases ih (FP.stdMin a x) with he | hm
    · rcases FP.stdMin_eq_or a x with h1 | h1
      · exact Or.inl (he.trans h1)
      · exact Or.inr (by rw [he, h1]; exact List.mem_cons_self x t)
    · exact Or.inr (List.mem_cons_of_mem x hm)

lemma foldl_stdMax_mem (l : List FP) (a : FP) :
    l.foldl FP.stdMax a = a ∨ l.foldl FP.stdMax a ∈ l := by
  induction l generalizing a with
  | nil => exact Or.inl rfl
  | cons x t ih =>
    rw [List.foldl_cons]
    rcases ih (FP.stdMax a x) with he | hm
    · rcases FP.stdMax_eq_or a x with h1 | h1
      · exact Or.inl (he.trans h1)
      · exact Or.inr (by rw [he, h1]; exact List.mem_cons_self x t)
    · exact Or.inr (List.mem_cons_of_mem x hm)

lemma minCoeff_ne_nan (xs : List FP) (hne : xs ≠ []) (hnan : FP.nan ∉ xs) :
    minCoeff xs ≠ FP.nan := by
  cases xs with
  | nil => exact absurd rfl hne
  | cons x t =>
    rw [show minCoeff (x :: t) = t.foldl FP.stdMin x from rfl]
    rcases foldl_stdMin_mem t x with he | hm
    · rw [he]; exact fun h => hnan (h ▸ List.mem_cons_self x t)
    · exact fun h => hnan (List.mem_cons_of_mem x (h ▸ hm))

lemma maxCoeff_ne_nan (xs : List FP) (hne : xs ≠ []) (hnan : FP.nan ∉ xs) :
    maxCoeff xs ≠ FP.nan := by
  cases xs with
  | nil => exact absurd rfl hne
  | cons x t =>
    rw [show maxCoeff (x :: t) = t.foldl FP.stdMax x from rfl]
    rcases foldl_stdMax_mem t x with he | hm
    · rw [he]; exact fun h => hnan (h ▸ List.mem_cons_self x t)
    · exact fun h => hnan (List.mem_cons_of_mem x (h ▸ hm))

/-- The zero-clamped observed minimum is NaN (iff the reduction produced
NaN), `-inf`, or a nonpositive finite value — never `+inf`. -/
lemma mn_shape (a : FP) :
    (FP.stdMin a (FP.fin 0) = FP.nan ∧ a = FP.nan) ∨
      FP.stdMin a (FP.fin 0) = FP.ninf ∨
        ∃ q, q ≤ 0 ∧ FP.stdMin a (FP.fin 0) = FP.fin q := by
  cases a with
  | nan => exact Or.inl ⟨rfl, rfl⟩
  | inf => exact Or.inr (Or.inr ⟨0, le_refl 0, rfl⟩)
  | ninf => exact Or.inr (Or.inl rfl)
  | fin q =>
    refine Or.inr (Or.inr ⟨min q 0, min_le_right q 0, ?_⟩)
    exact FP.stdMin_fin_fin q 0

/-- The zero-clamped observed maximum is NaN (iff the reduction produced
NaN), `+inf`, or a nonnegative finite value — never `-inf`. -/
lemma mx_shape (a : FP) :
    (FP.stdMax a (FP.fin 0) = FP.nan ∧ a = FP.nan) ∨
      FP.stdMax a (FP.fin 0) = FP.inf ∨
        ∃ q, 0 ≤ q ∧ FP.stdMax a (FP.fin 0) = FP.fin q := by
  cases a with
  | nan => exact Or.inl ⟨rfl, rfl⟩
  | inf => exact Or.inr (Or.inl rfl)
  | ninf => exact Or.inr (Or.inr ⟨0, le_refl 0, rfl⟩)
  | fin q =>
    refine Or.inr (Or.inr ⟨max q 0, le_max_right q 0, ?_⟩)
    exact FP.stdMax_fin_fin q 0

/-- The derived scale is NaN, `+inf`, or a nonnegative finite value. -/
lemma scale_shape (xs : List FP) :
    (Compute xs).y_scale = FP.nan ∨ (Compute xs).y_scale = FP.inf ∨
      ∃ q, 0 ≤ q ∧ (Compute xs).y_scale = FP.fin q := by
  rw [Compute_y_scale_eq]
  rcases mn_shape (minCoeff xs) with ⟨hmn, -⟩ | hmn | ⟨a, ha, hmn⟩ <;>
    rcases mx_shape (maxCoeff xs) with ⟨hmx, -⟩ | hmx | ⟨b, hb, hmx⟩ <;>
      rw [hmn, hmx]
  · exact Or.inl rfl
  · exact Or.inl rfl
  · exact Or.inl rfl
  · exact Or.inl rfl
  · exact Or.inr (Or.inl (by norm_num [FP.sub, FP.div]))
  · exact Or.inr (Or.inl (by norm_num [FP.sub, FP.div]))
  · exact Or.inl rfl
  · exact Or.inr (Or.inl (by norm_num [FP.sub, FP.div]))
  · refine Or.inr (Or.inr ⟨(b - a) / 255, div_nonneg (by linarith) (by norm_num), ?_⟩)
    rw [FP.sub_fin_fin, FP.div_fin_fin _ _ (by norm_num : (255 : ℚ) ≠ 0)]

/-- On a non-empty input containing no NaN the derived scale is `+inf` or a
nonnegative finite value. -/
lemma scale_shape_nonan (xs : List FP) (hne : xs ≠ []) (hnan : FP.nan ∉ xs) :
    (Compute xs).y_scale = FP.inf ∨
      ∃ q, 0 ≤ q ∧ (Compute xs).y_scale = FP.fin q := by
  rw [Compute_y_scale_eq]
  rcases mn_shape (minCoeff xs) with ⟨-, hmn'⟩ | hmn | ⟨a, ha, hmn⟩
  · exact absurd hmn' (minCoeff_ne_nan xs hne hnan)
  all_goals rcases mx_shape (maxCoeff xs) with ⟨-, hmx'⟩ | hmx | ⟨b, hb, hmx⟩
  · exact absurd hmx' (maxCoeff_ne_nan xs hne hnan)
  · rw [hmn, hmx]
    exact Or.inl (by norm_num [FP.sub, FP.div])
  · rw [hmn, hmx]
    exact Or.inl (by norm_num [FP.sub, FP.div])
  · exact absurd hmx' (maxCoeff_ne_nan xs hne hnan)
  · rw [hmn, hmx]
    exact Or.inl (by norm_num [FP.sub, FP.div])
  · rw [hmn, hmx]
    refine Or.inr ⟨(b - a) / 255, div_nonneg (by linarith) (by norm_num), ?_⟩
    rw [FP.sub_fin_fin, FP.div_fin_fin _ _ (by norm_num : (255 : ℚ) ≠ 0)]

lemma toU8_le_255 (v : FP) : toU8 v ≤ 255 := by
  cases v <;> simp only [toU8] <;> omega

lemma Compute_y_zero_point_le_255 (xs : List FP) :
    (Compute xs).y_zero_point ≤ 255 := by
  rw [Compute_y_zero_point_eq]
  exact toU8_le_255 _

/-! ### Partitioned execution -/

/-- Modelled from the spec: `ThreadPool::TryParallelFor`
(`core/platform/threadpool.h`, body not under `src/`) partitions `[0, n)`
into contiguous, non-overlapping sub-ranges covering every index exactly
once, and runs the quantization callback on each sub-range; the scale and
zero point are computed before dispatch and shared by all sub-ranges.  A
partition of the buffer is a list of contiguous chunks whose concatenation
is the buffer. -/
def ComputePartitioned (x_data : List FP) (parts : List (List FP)) : ComputeResult :=
  { y := (parts.map fun chunk =>
      MlasQuantizeLinear chunk (Compute x_data).y_scale (Compute x_data).y_zero_point).flatten
    y_scale := (Compute x_data).y_scale
    y_zero_point := (Compute x_data).y_zero_point }

lemma MlasQuantizeLinear_flatten (parts : List (List FP)) (s : FP) (zp : ℕ) :
    (parts.map fun chunk => MlasQuantizeLinear chunk s zp).flatten =
      MlasQuantizeLinear parts.flatten s zp := by
  simp [MlasQuantizeLinear, List.map_flatten]

/-! ### The claims -/

set_option maxRecDepth 4000 in
/-- **C1**: on input `[0.0, 2.0, -1.0, 1.0]` the kernel returns
`Y_scale = 3/255`, `Y_zero_point = 85` and `Y = [85, 255, 0, 170]`. -/
theorem scenario1_eval :
    Compute [FP.fin 0, FP.fin 2, FP.fin (-1), FP.fin 1] =
      { y := [85, 255, 0, 170], y_scale := FP.fin (3 / 255), y_zero_point := 85 } := by
  norm_num [Compute, minCoeff, maxCoeff, MlasQuantizeLinear, List.foldl, List.map,
    FP.stdMin_fin_fin, FP.stdMax_fin_fin, FP.sub_fin_fin, FP.add_fin_fin, FP.div_fin_fin,
    RoundHalfToEven_fin, toU8_fin, rhteQ]
  simp
  norm_num [Int.fract]
  decide

/-- **C2**: for every index `i` of the input, the quantized output element
is `round_half_to_even(clamp(input[i] / scale + zero_point, 0, 255))` cast
to `uint8`, with `(scale, zero_point)` the returned `Y_scale` and
`Y_zero_point`. -/
theorem quantize_elementwise_formula (xs : List FP) (i : ℕ) (x : FP)
    (hx : xs[i]? = some x) :
    (Compute xs).y[i]? = some (toU8 (RoundHalfToEven (FP.stdMax (FP.fin 0)
      (FP.stdMin (FP.fin 255) (FP.add (FP.div x (Compute xs).y_scale)
        (FP.fin ((Compute xs).y_zero_point : ℚ))))))) := by
  rw [Compute_y_eq]
  simp [MlasQuantizeLinear, List.getElem?_map, hx]

/-- Witness for `quantize_elementwise_formula` at the concrete input `[1.0]`. -/
theorem quantize_elementwise_formula_witness :
    ([FP.fin 1] : List FP)[0]? = some (FP.fin 1) ∧
      (Compute [FP.fin 1]).y[0]? = some (toU8 (RoundHalfToEven (FP.stdMax (FP.fin 0)
        (FP.stdMin (FP.fin 255) (FP.add (FP.div (FP.fin 1) (Compute [FP.fin 1]).y_scale)
          (FP.fin ((Compute [FP.fin 1]).y_zero_point : ℚ))))))) :=
  ⟨rfl, quantize_elementwise_formula [FP.fin 1] 0 (FP.fin 1) rfl⟩

/-- **C9**: the call is deterministic and partition-independent: for any
partition of the input buffer into contiguous sub-ranges, the partitioned
run produces the same `(Y, Y_scale, Y_zero_point)` as the single-partition
sequential run. -/
theorem partition_independent (xs : List FP) (parts : List (List FP))
    (hp : parts.flatten = xs) :
    ComputePartitioned xs parts = Compute xs := by
  unfold ComputePartitioned
  rw [MlasQuantizeLinear_flatten, hp, ← Compute_y_eq]

/-- Witness for `partition_independent`: a two-chunk partition of a
four-element buffer. -/
theorem partition_independent_witness :
    ([[FP.fin 0, FP.fin 2], [FP.fin (-1)], [FP.fin 1]] : List (List FP)).flatten =
        [FP.fin 0, FP.fin 2, FP.fin (-1), FP.fin 1] ∧
      ComputePartitioned [FP.fin 0, FP.fin 2, FP.fin (-1), FP.fin 1]
          [[FP.fin 0, FP.fin 2], [FP.fin (-1)], [FP.fin 1]] =
        Compute [FP.fin 0, FP.fin 2, FP.fin (-1), FP.fin 1] :=
  ⟨rfl, partition_independent _ _ rfl⟩

/-- The zero-point computation as the spec words it (§4.1 Step 4):
`initial_zero_point = qmin - min / scale`, clamped to `[qmin, qmax]`,
rounded with round-half-to-even, cast to the output integer type
(`qmin = 0`, `qmax = 255`). -/
def zeroPointSpec (mn scale : FP) : ℕ :=
  toU8 (RoundHalfToEven (FP.stdMax (FP.fin 0) (FP.stdMin (FP.fin 255)
    (FP.sub (FP.fin 0) (FP.div mn scale)))))

/-- **C4**: on every non-empty finite-valued input, `Y_scale` equals
`(max - min) / (qmax - qmin)` with `min`/`max` the observed extrema forced
to contain zero and `qmin = 0`, `qmax = 255`. -/
theorem scale_formula (qs : List ℚ) (hne : qs ≠ []) :
    (Compute (qs.map FP.fin)).y_scale =
      FP.fin ((max (obsMax qs) 0 - min (obsMin qs) 0) / (255 - 0)) := by
  rw [Compute_y_scale_map_fin qs hne]
  norm_num [scaleQ]

/-- Witness for `scale_formula` at the concrete input `[0, 2, -1, 1]`. -/
theorem scale_formula_witness :
    (([0, 2, -1, 1] : List ℚ) ≠ []) ∧
      (Compute (([0, 2, -1, 1] : List ℚ).map FP.fin)).y_scale =
        FP.fin ((max (obsMax [0, 2, -1, 1]) 0 - min (obsMin [0, 2, -1, 1]) 0) / (255 - 0)) :=
  ⟨by simp, scale_formula [0, 2, -1, 1] (by simp)⟩

/-- **C3**: on every non-empty finite-valued input, the returned zero point
is `initial_zero_point = qmin - min / scale` clamped to `[qmin, qmax]`,
then rounded half-to-even, then cast to `uint8` (`zeroPointSpec`); when the
scale is nonzero this is exactly
`round_half_to_even(clamp(0 - min / scale, 0, 255))` computed in exact
arithmetic. -/
theorem zero_point_formula (qs : List ℚ) (hne : qs ≠ []) :
    (Compute (qs.map FP.fin)).y_zero_point =
        zeroPointSpec (FP.fin (min (obsMin qs) 0)) (Compute (qs.map FP.fin)).y_scale ∧
      (scaleQ qs ≠ 0 →
        (Compute (qs.map FP.fin)).y_zero_point =
          (rhteQ (max 0 (min 255 (0 - min (obsMin qs) 0 / scaleQ qs)))).toNat) := by
  constructor
  · rw [Compute_y_zero_point_eq, zeroPointSpec, minCoeff_map_fin qs hne, FP.stdMin_fin_fin]
  · intro hs
    rw [Compute_y_zero_point_map_fin qs hne hs]
    unfold zpZ
    rw [show (0 : ℚ) - min (obsMin qs) 0 / scaleQ qs = izpQ qs from rfl,
      min_eq_right (izpQ_bounds qs hs).2, max_eq_right (izpQ_bounds qs hs).1]

set_option maxRecDepth 4000 in
/-- Witness for `zero_point_formula` at `[-1, 509]`, where
`initial_zero_point = 255 * 1 / 510 = 0.5` lands exactly on a rounding
boundary: round-half-to-even gives `Y_zero_point = 0` (rounding half away
from zero would give 1). -/
theorem zero_point_formula_witness :
    (([-1, 509] : List ℚ) ≠ []) ∧
      ((Compute (([-1, 509] : List ℚ).map FP.fin)).y_zero_point =
          zeroPointSpec (FP.fin (min (obsMin [-1, 509]) 0))
            (Compute (([-1, 509] : List ℚ).map FP.fin)).y_scale ∧
        (scaleQ [-1, 509] ≠ 0 →
          (Compute (([-1, 509] : List ℚ).map FP.fin)).y_zero_point =
            (rhteQ (max 0 (min 255 (0 - min (obsMin [-1, 509]) 0 / scaleQ [-1, 509])))).toNat)) ∧
      (Compute (([-1, 509] : List ℚ).map FP.fin)).y_zero_point = 0 :=
  ⟨by simp, zero_point_formula [-1, 509] (by simp), by
    norm_num [Compute, minCoeff, maxCoeff, List.foldl, List.map,
      FP.stdMin_fin_fin, FP.stdMax_fin_fin, FP.sub_fin_fin, FP.add_fin_fin, FP.div_fin_fin,
      RoundHalfToEven_fin, toU8_fin, rhteQ]⟩

lemma foldl_min_mem (l : List ℚ) (a : ℚ) : l.foldl min a = a ∨ l.foldl min a ∈ l := by
  induction l generalizing a with
  | nil => exact Or.inl rfl
  | cons x t ih =>
    rw [List.foldl_cons]
    rcases ih (min a x) with he | hm
    · rcases min_choice a x with h1 | h1
      · exact Or.inl (he.trans h1)
      · exact Or.inr (by rw [he, h1]; exact List.mem_cons_self x t)
    · exact Or.inr (List.mem_cons_of_mem x hm)

lemma obsMin_mem (qs : List ℚ) (hne : qs ≠ []) : obsMin qs ∈ qs := by
  cases qs with
  | nil => exact absurd rfl hne
  | cons q t =>
    rcases foldl_min_mem t q with he | hm
    · rw [show obsMin (q :: t) = t.foldl min q from rfl, he]
      exact List.mem_cons_self q t
    · exact List.mem_cons_of_mem q hm

/-- **C10**: on a non-empty input whose elements are all nonnegative with a
strictly positive maximum, the returned zero point is exactly 0. -/
theorem zero_point_of_nonneg_input (qs : List ℚ) (hne : qs ≠ [])
    (hnn : ∀ q ∈ qs, 0 ≤ q) (hpos : ∃ q ∈ qs, 0 < q) :
    (Compute (qs.map FP.fin)).y_zero_point = 0 := by
  have hobsmin : 0 ≤ obsMin qs := hnn _ (obsMin_mem qs hne)
  have hmn : min (obsMin qs) 0 = 0 := min_eq_right hobsmin
  obtain ⟨p, hp, hppos⟩ := hpos
  have hobsmax : 0 < obsMax qs := lt_of_lt_of_le hppos (le_obsMax qs p hp)
  have hmx : 0 < max (obsMax qs) 0 := lt_of_lt_of_le hobsmax (le_max_left _ _)
  have hs : 0 < scaleQ qs := by
    unfold scaleQ
    rw [hmn]
    apply div_pos (by linarith) (by norm_num)
  rw [Compute_y_zero_point_map_fin qs hne (ne_of_gt hs)]
  have hizp : izpQ qs = 0 := by
    unfold izpQ
    rw [hmn, zero_div, sub_zero]
  rw [show zpZ qs = rhteQ (izpQ qs) from rfl, hizp,
    show (0 : ℚ) = ((0 : ℤ) : ℚ) by norm_num, rhteQ_intCast]
  rfl

/-- Witness for `zero_point_of_nonneg_input` at the concrete input `[0, 2]`. -/
theorem zero_point_of_nonneg_input_witness :
    (([0, 2] : List ℚ) ≠ []) ∧ (∀ q ∈ ([0, 2] : List ℚ), 0 ≤ q) ∧
      (∃ q ∈ ([0, 2] : List ℚ), 0 < q) ∧
      (Compute (([0, 2] : List ℚ).map FP.fin)).y_zero_point = 0 :=
  ⟨by simp, by norm_num, ⟨2, by norm_num⟩,
    zero_point_of_nonneg_input [0, 2] (by simp) (by norm_num) ⟨2, by norm_num⟩⟩

/-- Counterexample to **C5** as stated: on the single-element input
`[NaN]`, the observed min and max are NaN, so the derived scale is NaN and
`Y_scale ≥ 0` does not hold (IEEE comparisons with NaN are false). -/
theorem scale_nonneg_counterexample :
    ¬ (FP.le (FP.fin 0) (Compute [FP.nan]).y_scale = true) := by
  rw [Compute_y_scale_eq]
  simp [minCoeff, maxCoeff, FP.stdMin, FP.stdMax, FP.lt, FP.sub, FP.div, FP.le]

/-- **C5** (amended): on every non-empty input that contains no NaN —
infinities allowed — the returned `Y_scale` satisfies `Y_scale ≥ 0`
(it is `+inf` or a nonnegative finite value). -/
theorem scale_nonneg (xs : List FP) (hne : xs ≠ []) (hnan : FP.nan ∉ xs) :
    FP.le (FP.fin 0) (Compute xs).y_scale = true := by
  rcases scale_shape_nonan xs hne hnan with hs | ⟨q, hq, hs⟩
  · rw [hs]; rfl
  · rw [hs]
    simpa [FP.le] using hq

/-- Witness for `scale_nonneg` on an input containing `-inf`. -/
theorem scale_nonneg_witness :
    (([FP.ninf, FP.fin 3] : List FP) ≠ []) ∧ FP.nan ∉ ([FP.ninf, FP.fin 3] : List FP) ∧
      FP.le (FP.fin 0) (Compute [FP.ninf, FP.fin 3]).y_scale = true :=
  ⟨by simp, by simp, scale_nonneg [FP.ninf, FP.fin 3] (by simp) (by simp)⟩

lemma FP.div_nan_right (a : FP) : FP.div a FP.nan = FP.nan := by
  cases a <;> rfl

/-- Clamping a NaN intermediate with the kernel's
`std::max(0, std::min(255, ·))` idiom yields 255, which then rounds and
casts to 255. -/
lemma clampRound_nan :
    toU8 (RoundHalfToEven (FP.stdMax (FP.fin 0) (FP.stdMin (FP.fin 255) FP.nan))) = 255 := by
  rw [show FP.stdMin (FP.fin 255) FP.nan = FP.fin 255 from rfl,
    show FP.stdMax (FP.fin 0) (FP.fin 255) = FP.fin (max 0 255) from FP.stdMax_fin_fin 0 255,
    RoundHalfToEven_fin, toU8_fin]
  norm_num [rhteQ]
  decide

/-- Clamping and rounding an integer zero point in `[0, 255]` returns it
unchanged. -/
lemma clampRound_natCast (zp : ℕ) (h : zp ≤ 255) :
    toU8 (RoundHalfToEven (FP.stdMax (FP.fin 0) (FP.stdMin (FP.fin 255)
      (FP.fin (zp : ℚ))))) = zp := by
  have h255 : ((zp : ℚ)) ≤ 255 := by exact_mod_cast h
  have h0 : (0 : ℚ) ≤ (zp : ℚ) := by positivity
  rw [FP.stdMin_fin_fin, min_eq_right h255, FP.stdMax_fin_fin, max_eq_right h0,
    RoundHalfToEven_fin, rhteQ_natCast, toU8_fin, Int.floor_intCast, Int.toNat_natCast]
  omega

lemma minCoeff_all_zero (xs : List FP) (hne : xs ≠ []) (hz : ∀ x ∈ xs, x = FP.fin 0) :
    minCoeff xs = FP.fin 0 := by
  cases xs with
  | nil => exact absurd rfl hne
  | cons x t =>
    rw [show minCoeff (x :: t) = t.foldl FP.stdMin x from rfl]
    rcases foldl_stdMin_mem t x with he | hm
    · rw [he]
      exact hz x (List.mem_cons_self x t)
    · exact hz _ (List.mem_cons_of_mem x hm)

lemma maxCoeff_all_zero (xs : List FP) (hne : xs ≠ []) (hz : ∀ x ∈ xs, x = FP.fin 0) :
    maxCoeff xs = FP.fin 0 := by
  cases xs with
  | nil => exact absurd rfl hne
  | cons x t =>
    rw [show maxCoeff (x :: t) = t.foldl FP.stdMax x from rfl]
    rcases foldl_stdMax_mem t x with he | hm
    · rw [he]
      exact hz x (List.mem_cons_self x t)
    · exact hz _ (List.mem_cons_of_mem x hm)

/-- **C7**: on an all-zero input the kernel produces the defined,
deterministic result `Y_scale = 0` with every element of `Y` equal to
`Y_zero_point` (no crash, no NaN in the outputs: `Y` and `Y_zero_point`
are integers and `Y_scale` is the finite value 0). -/
theorem all_zero_input (xs : List FP) (hne : xs ≠ []) (hz : ∀ x ∈ xs, x = FP.fin 0) :
    (Compute xs).y_scale = FP.fin 0 ∧
      ∀ q ∈ (Compute xs).y, q = (Compute xs).y_zero_point := by
  have hmin := minCoeff_all_zero xs hne hz
  have hmax := maxCoeff_all_zero xs hne hz
  have hscale : (Compute xs).y_scale = FP.fin 0 := by
    rw [Compute_y_scale_eq, hmin, hmax, FP.stdMin_fin_fin, FP.stdMax_fin_fin,
      FP.sub_fin_fin, FP.div_fin_fin _ _ (by norm_num : (255 : ℚ) ≠ 0)]
    norm_num
  have hzp : (Compute xs).y_zero_point = 255 := by
    rw [Compute_y_zero_point_eq, hscale, hmin, FP.stdMin_fin_fin, min_self,
      show FP.div (FP.fin 0) (FP.fin 0) = FP.nan by simp [FP.div],
      show FP.sub (FP.fin 0) FP.nan = FP.nan from rfl]
    exact clampRound_nan
  refine ⟨hscale, ?_⟩
  intro q hq
  rw [Compute_y_eq] at hq
  simp only [MlasQuantizeLinear, List.mem_map] at hq
  obtain ⟨x, hxmem, hqe⟩ := hq
  rw [hz x hxmem, hscale, hzp] at hqe
  rw [hzp, ← hqe,
    show FP.div (FP.fin 0) (FP.fin 0) = FP.nan by simp [FP.div],
    show FP.add FP.nan (FP.fin ((255 : ℕ) : ℚ)) = FP.nan from rfl]
  exact clampRound_nan

/-- Witness for `all_zero_input` at the concrete input `[0.0, 0.0, 0.0]`. -/
theorem all_zero_input_witness :
    (([FP.fin 0, FP.fin 0, FP.fin 0] : List FP) ≠ []) ∧
      (∀ x ∈ ([FP.fin 0, FP.fin 0, FP.fin 0] : List FP), x = FP.fin 0) ∧
      ((Compute [FP.fin 0, FP.fin 0, FP.fin 0]).y_scale = FP.fin 0 ∧
        ∀ q ∈ (Compute [FP.fin 0, FP.fin 0, FP.fin 0]).y,
          q = (Compute [FP.fin 0, FP.fin 0, FP.fin 0]).y_zero_point) :=
  ⟨by simp, by simp,
    all_zero_input [FP.fin 0, FP.fin 0, FP.fin 0] (by simp) (by simp)⟩

/-- If the derived scale is the finite value 0, the zero-clamped observed
minimum must be exactly the finite value 0. -/
lemma scale_fin_zero_mn (xs : List FP) (h : (Compute xs).y_scale = FP.fin 0) :
    FP.stdMin (minCoeff xs) (FP.fin 0) = FP.fin 0 := by
  rw [Compute_y_scale_eq] at h
  rcases mn_shape (minCoeff xs) with ⟨hM, -⟩ | hM | ⟨a, ha, hM⟩
  all_goals rcases mx_shape (maxCoeff xs) with ⟨hX, -⟩ | hX | ⟨b, hb, hX⟩
  all_goals rw [hM, hX] at h
  · exact FP.noConfusion h
  · exact FP.noConfusion h
  · exact FP.noConfusion h
  · exact FP.noConfusion h
  · exact FP.noConfusion h
  · exact FP.noConfusion h
  · exact FP.noConfusion h
  · exact FP.noConfusion h
  · rw [FP.sub_fin_fin, FP.div_fin_fin _ _ (by norm_num : (255 : ℚ) ≠ 0)] at h
    have hba : (b - a) / 255 = 0 := (FP.fin.injEq _ _).mp h
    have ha0 : a = 0 := by
      have hb0 : b - a = 0 := by
        rw [div_eq_zero_iff] at hba
        rcases hba with h1 | h1
        · exact h1
        · norm_num at h1
      linarith
    rw [hM]
    exact congrArg FP.fin ha0

/-- **C8**: whenever an input element is exactly `0.0`, the corresponding
output element equals the returned `Y_zero_point` — on all inputs,
including NaN/Inf-containing and all-zero ones. -/
theorem quantize_zero_exact (xs : List FP) (i : ℕ) (hx : xs[i]? = some (FP.fin 0)) :
    (Compute xs).y[i]? = some ((Compute xs).y_zero_point) := by
  rw [Compute_y_eq]
  simp only [MlasQuantizeLinear, List.getElem?_map, hx, Option.map_some']
  congr 1
  have hzp255 := Compute_y_zero_point_le_255 xs
  rcases scale_shape xs with hs | hs | ⟨c, hc, hs⟩
  · have hzp : (Compute xs).y_zero_point = 255 := by
      rw [Compute_y_zero_point_eq, hs, FP.div_nan_right,
        show FP.sub (FP.fin 0) FP.nan = FP.nan from rfl]
      exact clampRound_nan
    rw [hs, hzp, show FP.div (FP.fin 0) FP.nan = FP.nan from rfl,
      show FP.add FP.nan (FP.fin ((255 : ℕ) : ℚ)) = FP.nan from rfl]
    exact clampRound_nan
  · rw [hs, show FP.div (FP.fin 0) FP.inf = FP.fin 0 from rfl,
      FP.add_fin_fin, zero_add]
    exact clampRound_natCast _ hzp255
  · rcases eq_or_ne c 0 with rfl | hc0
    · have hmn := scale_fin_zero_mn xs hs
      have hzp : (Compute xs).y_zero_point = 255 := by
        rw [Compute_y_zero_point_eq, hs, hmn,
          show FP.div (FP.fin 0) (FP.fin 0) = FP.nan by simp [FP.div],
          show FP.sub (FP.fin 0) FP.nan = FP.nan from rfl]
        exact clampRound_nan
      rw [hs, hzp, show FP.div (FP.fin 0) (FP.fin 0) = FP.nan by simp [FP.div],
        show FP.add FP.nan (FP.fin ((255 : ℕ) : ℚ)) = FP.nan from rfl]
      exact clampRound_nan
    · rw [hs, FP.div_fin_fin _ _ hc0, zero_div, FP.add_fin_fin, zero_add]
      exact clampRound_natCast _ hzp255

/-- Witness for `quantize_zero_exact` at the concrete input `[0.0, 2.0]`. -/
theorem quantize_zero_exact_witness :
    (([FP.fin 0, FP.fin 2] : List FP)[0]? = some (FP.fin 0)) ∧
      (Compute [FP.fin 0, FP.fin 2]).y[0]? =
        some ((Compute [FP.fin 0, FP.fin 2]).y_zero_point) :=
  ⟨rfl, quantize_zero_exact [FP.fin 0, FP.fin 2] 0 rfl⟩

lemma zp_of_scale_fin_zero (xs : List FP) (h : (Compute xs).y_scale = FP.fin 0) :
    (Compute xs).y_zero_point = 255 := by
  rw [Compute_y_zero_point_eq, h, scale_fin_zero_mn xs h,
    show FP.div (FP.fin 0) (FP.fin 0) = FP.nan by simp [FP.div],
    show FP.sub (FP.fin 0) FP.nan = FP.nan from rfl]
  exact clampRound_nan

/-- Rounding after the `[0, 255]` clamp moves a value that is within half
a unit of the clamp range by at most half a unit. -/
lemma clamp_round_near (z : ℚ) (hzlo : -(1/2 : ℚ) ≤ z) (hzhi : z ≤ 255 + 1/2) :
    |((rhteQ (max 0 (min 255 z)) : ℤ) : ℚ) - z| ≤ 1/2 := by
  rcases lt_or_le z 0 with hz | hz
  · rw [min_eq_right (le_trans hz.le (by norm_num)), max_eq_left hz.le,
      show (0 : ℚ) = ((0 : ℤ) : ℚ) by norm_num, rhteQ_intCast]
    rw [abs_le]
    constructor <;> push_cast <;> linarith
  · rcases le_or_lt z 255 with h255 | h255
    · rw [min_eq_right h255, max_eq_right hz]
      exact abs_rhteQ_sub_le z
    · rw [min_eq_left h255.le, max_eq_right (by norm_num : (0 : ℚ) ≤ 255),
        show (255 : ℚ) = ((255 : ℤ) : ℚ) by norm_num, rhteQ_intCast]
      rw [abs_le]
      constructor <;> push_cast <;> linarith

/-- Core of the round-trip bound: on a finite-valued input with nonzero
scale, the requantized value of any input element is within one scale unit
(in fact half a unit) of the element. -/
lemma roundtrip_core (qs : List ℚ) (x : ℚ) (hmem : x ∈ qs) (hs : scaleQ qs ≠ 0) :
    |(((rhteQ (max 0 (min 255 (x / scaleQ qs + ((zpZ qs).toNat : ℚ))))).toNat : ℚ)
        - ((zpZ qs).toNat : ℚ)) * scaleQ qs - x| ≤ scaleQ qs := by
  have spos : 0 < scaleQ qs := scaleQ_pos qs hs
  have hZb := zpZ_bounds qs hs
  have hZQ : (((zpZ qs).toNat : ℚ)) = ((zpZ qs : ℤ) : ℚ) := by
    exact_mod_cast congrArg (fun t : ℤ => (t : ℚ)) (Int.toNat_of_nonneg hZb.1)
  rw [hZQ]
  have habs := abs_rhteQ_sub_le (izpQ qs)
  rw [show rhteQ (izpQ qs) = zpZ qs from rfl, abs_le] at habs
  have hmnx : min (obsMin qs) 0 ≤ x := le_trans (min_le_left _ _) (obsMin_le qs x hmem)
  have hxmx : x ≤ max (obsMax qs) 0 := le_trans (le_obsMax qs x hmem) (le_max_left _ _)
  have hkey : max (obsMax qs) 0 - min (obsMin qs) 0 = 255 * scaleQ qs := by
    unfold scaleQ
    field_simp
  have hmn_eq : min (obsMin qs) 0 / scaleQ qs = -(izpQ qs) := by
    unfold izpQ
    ring
  have h1 : min (obsMin qs) 0 / scaleQ qs ≤ x / scaleQ qs := by gcongr
  have h2 : x / scaleQ qs ≤ max (obsMax qs) 0 / scaleQ qs := by gcongr
  have hmx_div : max (obsMax qs) 0 / scaleQ qs = 255 + min (obsMin qs) 0 / scaleQ qs := by
    field_simp
    linarith
  have hzlo : -(1/2 : ℚ) ≤ x / scaleQ qs + ((zpZ qs : ℤ) : ℚ) := by
    rw [hmn_eq] at h1
    linarith [habs.1]
  have hzhi : x / scaleQ qs + ((zpZ qs : ℤ) : ℚ) ≤ 255 + 1/2 := by
    rw [hmx_div, hmn_eq] at h2
    linarith [habs.2]
  have hQbound := clamp_round_near (x / scaleQ qs + ((zpZ qs : ℤ) : ℚ)) hzlo hzhi
  have hQ0 : 0 ≤ rhteQ (max 0 (min 255 (x / scaleQ qs + ((zpZ qs : ℤ) : ℚ)))) := by
    apply le_rhteQ
    push_cast
    exact le_max_left _ _
  have hQQ : ((rhteQ (max 0 (min 255 (x / scaleQ qs + ((zpZ qs : ℤ) : ℚ))))).toNat : ℚ)
      = ((rhteQ (max 0 (min 255 (x / scaleQ qs + ((zpZ qs : ℤ) : ℚ)))) : ℤ) : ℚ) := by
    exact_mod_cast congrArg (fun t : ℤ => (t : ℚ)) (Int.toNat_of_nonneg hQ0)
  rw [hQQ]
  have hfact : (((rhteQ (max 0 (min 255 (x / scaleQ qs + ((zpZ qs : ℤ) : ℚ)))) : ℤ) : ℚ)
        - ((zpZ qs : ℤ) : ℚ)) * scaleQ qs - x
      = (((rhteQ (max 0 (min 255 (x / scaleQ qs + ((zpZ qs : ℤ) : ℚ)))) : ℤ) : ℚ)
        - (x / scaleQ qs + ((zpZ qs : ℤ) : ℚ))) * scaleQ qs := by
    field_simp
    ring
  rw [hfact, abs_mul, abs_of_pos spos]
  have := mul_le_mul_of_nonneg_right hQbound spos.le
  linarith

/-- **C6**: for every input element `x`, the round-trip error is bounded by
the scale: the quantized element `q` satisfies
`|(q - Y_zero_point) * Y_scale - x| ≤ Y_scale` (finite-valued inputs). -/
theorem round_trip_error_bound (qs : List ℚ) (i : ℕ) (x : ℚ) (hx : qs[i]? = some x) :
    ∃ q : ℕ, (Compute (qs.map FP.fin)).y[i]? = some q ∧
      ∃ s : ℚ, (Compute (qs.map FP.fin)).y_scale = FP.fin s ∧
        |((q : ℚ) - ((Compute (qs.map FP.fin)).y_zero_point : ℚ)) * s - x| ≤ s := by
  have hne : qs ≠ [] := by
    rintro rfl
    simp at hx
  have hmem : x ∈ qs := List.getElem?_mem hx
  rcases eq_or_ne (scaleQ qs) 0 with hs0 | hs0
  · have hscale := Compute_y_scale_map_fin qs hne
    rw [hs0] at hscale
    have hzp := zp_of_scale_fin_zero _ hscale
    have h01 : min (obsMin qs) 0 ≤ 0 := min_le_right _ _
    have h02 : (0 : ℚ) ≤ max (obsMax qs) 0 := le_max_right _ _
    have hnum : max (obsMax qs) 0 - min (obsMin qs) 0 = 0 := by
      unfold scaleQ at hs0
      rw [div_eq_zero_iff] at hs0
      rcases hs0 with h | h
      · exact h
      · norm_num at h
    have hmn0 : min (obsMin qs) 0 = 0 := by linarith
    have hmx0 : max (obsMax qs) 0 = 0 := by linarith
    have hx0 : x = 0 := by
      have ha : 0 ≤ obsMin qs := by
        by_contra hlt
        push_neg at hlt
        rw [min_eq_left hlt.le] at hmn0
        linarith
      have hb : obsMax qs ≤ 0 := by
        by_contra hlt
        push_neg at hlt
        rw [max_eq_left hlt.le] at hmx0
        linarith
      have hax := obsMin_le qs x hmem
      have hbx := le_obsMax qs x hmem
      linarith
    refine ⟨255, ?_, 0, hscale, ?_⟩
    · rw [Compute_y_eq, hscale, hzp]
      simp only [MlasQuantizeLinear, List.getElem?_map, hx, Option.map_some']
      rw [hx0]
      congr 1
      rw [show FP.div (FP.fin 0) (FP.fin 0) = FP.nan by simp [FP.div],
        show FP.add FP.nan (FP.fin ((255 : ℕ) : ℚ)) = FP.nan from rfl]
      exact clampRound_nan
    · rw [hzp, hx0]
      norm_num
  · refine ⟨(rhteQ (max 0 (min 255 (x / scaleQ qs + ((zpZ qs).toNat : ℚ))))).toNat, ?_,
      scaleQ qs, Compute_y_scale_map_fin qs hne, ?_⟩
    · rw [Compute_y_map_fin qs hne hs0]
      simp only [List.getElem?_map, hx, Option.map_some']
    · rw [Compute_y_zero_point_map_fin qs hne hs0]
      exact roundtrip_core qs x hmem hs0

/-- Witness for `round_trip_error_bound` at input `[0, 2, -1, 1]`,
element index 2 (the value `-1`). -/
theorem round_trip_error_bound_witness :
    (([0, 2, -1, 1] : List ℚ)[2]? = some ((-1 : ℚ))) ∧
      ∃ q : ℕ, (Compute (([0, 2, -1, 1] : List ℚ).map FP.fin)).y[2]? = some q ∧
        ∃ s : ℚ, (Compute (([0, 2, -1, 1] : List ℚ).map FP.fin)).y_scale = FP.fin s ∧
          |((q : ℚ) - ((Compute (([0, 2, -1, 1] : List ℚ).map FP.fin)).y_zero_point : ℚ)) * s
              - (-1)| ≤ s :=
  ⟨by simp, round_trip_error_bound [0, 2, -1, 1] 2 (-1) (by simp)⟩
